import Mathlib

/-!
Verification of the flashmob repository core: the Gemini-response
text-to-card parser and the HTTP generation mediator
(src/flashmob-server/server.js) together with the client-side request
wrapper (src/flashmob-app/src/components/AiService.jsx).

Strings are embedded as `List Char`.  The two JavaScript regular
expressions of `parseGeminiResponse` are embedded by spelling out the
behaviour of the backtracking engine on these concrete patterns:

* primary strategy, flags `gis` (global, case-insensitive, dotall):
    Q:\s*(.*?)\s*\n\s*A:\s*(.*?)(?=\n\s*Q:|$)
* fallback strategy, per blank-line-separated block, flag `i`:
    Q:\s*(.*?)(?:\n|$)   and   A:\s*(.*?)(?:\n|$)
* block separator for String.prototype.split:  \n\s*\n

The loops that advance through the input (the `regex.exec` loop and the
`split` scan) are written with an explicit fuel argument so that every
definition is a computable structural recursion; fuel equal to the input
length is always sufficient, because each step consumes at least one
character: for the exec loop this is proved as `execLoop_fuel_irrel`,
and the lemmas about the block split hold for every fuel value.
-/

namespace FlashMob

/-- Whitespace class of JavaScript regular expressions (`\s`) and of
`String.prototype.trim`: tab, line feed, vertical tab, form feed,
carriage return, space, and the Unicode space separators recognised by
ECMAScript. -/
def isSpace (c : Char) : Bool :=
  c == ' ' || c == '\t' || c == '\n' || c == '\r' ||
  c == '\x0b' || c == '\x0c' || c == '\u00A0' || c == '\u1680' ||
  ('\u2000' ≤ c && c ≤ '\u200A') || c == '\u2028' || c == '\u2029' ||
  c == '\u202F' || c == '\u205F' || c == '\u3000' || c == '\uFEFF'

/-- Line terminators of ECMAScript: the characters that `.` does not
match when the `s` (dotall) flag is absent. -/
def isLineTerm (c : Char) : Bool :=
  c == '\n' || c == '\r' || c == '\u2028' || c == '\u2029'

/-- Leading-whitespace removal (left half of `String.prototype.trim`). -/
def trimLeft (l : List Char) : List Char := l.dropWhile isSpace

/-- Trailing-whitespace removal (right half of `String.prototype.trim`). -/
def trimRight (l : List Char) : List Char := (l.reverse.dropWhile isSpace).reverse

/-- Embedding of `String.prototype.trim` from server.js (`.trim()` calls
at lines 61-62 and 78-79). -/
def trim (l : List Char) : List Char := trimRight (trimLeft l)

/-- Does the list begin with the question marker `Q:`?  The `i` flag of
both regexes makes the letter case-insensitive. -/
def startsQ : List Char → Bool
  | c :: d :: _ => (c == 'Q' || c == 'q') && d == ':'
  | _ => false

/-- Does the list begin with the answer marker `A:` (case-insensitive)? -/
def startsA : List Char → Bool
  | c :: d :: _ => (c == 'A' || c == 'a') && d == ':'
  | _ => false

/-- A flashcard as produced by `parseGeminiResponse`
(server.js line 64: `cards.push({ question, answer })`). -/
structure Card where
  question : List Char
  answer : List Char
deriving DecidableEq, Repr

/-- Does `\s*\n\s*A:` match here (the part of the primary regex between
the two capture groups)?  Because `A` is not whitespace, the greedy
`\s*\n\s*` must consume exactly the maximal whitespace run, which
therefore has to contain a line feed and be followed by `A:`. -/
def wsNlA (l : List Char) : Bool :=
  (l.takeWhile isSpace).contains '\n' && startsA (l.dropWhile isSpace)

/-- Scan of the lazy first capture group `(.*?)` of the primary regex:
with the `s` flag the dot matches every character, and the group stops at
the first position where `\s*\n\s*A:` matches.  Returns the group
content and the remainder just after the matched `A:`. -/
def scanTail : List Char → Option (List Char × List Char)
  | [] => none
  | c :: rest =>
    if wsNlA (c :: rest) then some ([], ((c :: rest).dropWhile isSpace).drop 2)
    else
      match scanTail rest with
      | some (g, r) => some (c :: g, r)
      | none => none

/-- Matching of `\s*(.*?)\s*\n\s*A:` against the text following `Q:` in
the primary regex.  The engine first fixes the leading greedy `\s*` at
the maximal whitespace run and scans the lazy group forward from there
(`scanTail`); only when no group end at or after that point works does
it shorten the leading `\s*`, in which case the group is empty and the
whitespace run itself must contain the line feed and be followed by
`A:`.  Returns the first capture group and the remainder after `A:`. -/
def scanQcontent (l : List Char) : Option (List Char × List Char) :=
  match scanTail (l.dropWhile isSpace) with
  | some gr => some gr
  | none =>
    if (l.takeWhile isSpace).contains '\n' && startsA (l.dropWhile isSpace) then
      some ([], (l.dropWhile isSpace).drop 2)
    else none

/-- Does the lookahead body `\n\s*Q:` of the primary regex match here? -/
def nlWsQ : List Char → Bool
  | c :: rest => c == '\n' && startsQ (rest.dropWhile isSpace)
  | _ => false

/-- Scan of the lazy second capture group `(.*?)(?=\n\s*Q:|$)` of the
primary regex, started after the maximal whitespace run that the greedy
`\s*` following `A:` consumes.  The group stops at the first position
where the lookahead matches; the alternative `$` always succeeds at the
end of the input.  Returns the group content and the remainder (the
lookahead consumes nothing, so the remainder is where `lastIndex` is
left for the next `exec`). -/
def scanAcontent : List Char → List Char × List Char
  | [] => ([], [])
  | c :: rest =>
    if nlWsQ (c :: rest) then ([], c :: rest)
    else (c :: (scanAcontent rest).1, (scanAcontent rest).2)

/-- The `while ((match = regex.exec(textResponse)) !== null)` loop of
server.js lines 59-67 for the primary regex: the engine looks for the
leftmost match start (a case-insensitive `Q:`) from the current
position, and after a match continues at its end.  The fuel argument
bounds the recursion; fuel equal to the list length is always enough
because each step consumes at least one character. -/
def execLoop : Nat → List Char → List (List Char × List Char)
  | 0, _ => []
  | _ + 1, [] => []
  | fuel + 1, c :: rest =>
    if startsQ (c :: rest) then
      match scanQcontent ((c :: rest).drop 2) with
      | some (q, afterA) =>
        (q, (scanAcontent (afterA.dropWhile isSpace)).1) ::
          execLoop fuel (scanAcontent (afterA.dropWhile isSpace)).2
      | none => execLoop fuel rest
    else execLoop fuel rest

/-- All raw matches (pairs of capture groups) of the primary regex. -/
def primaryMatches (l : List Char) : List (List Char × List Char) :=
  execLoop l.length l

/-- Cards produced by the primary strategy (server.js lines 59-67):
both capture groups are trimmed and the pair is kept only when both
trim to something non-empty. -/
def primaryCards (l : List Char) : List Card :=
  (primaryMatches l).filterMap fun p =>
    let q := trim p.1
    let a := trim p.2
    if q.isEmpty || a.isEmpty then none else some ⟨q, a⟩

/-- Leftmost match of the block separator regex `\n\s*\n` of
`textResponse.split(/\n\s*\n/)` (server.js line 71) at the head of the
list: a line feed whose following maximal whitespace run contains
another line feed.  The greedy `\s*` ends just before the last line
feed of the run, so the returned remainder is the part of the run after
that last line feed followed by the text after the run. -/
def sepMatch : List Char → Option (List Char)
  | [] => none
  | c :: rest =>
    if c == '\n' then
      if ((rest.takeWhile isSpace).contains '\n') then
        some (((rest.takeWhile isSpace).reverse.takeWhile (fun x => !(x == '\n'))).reverse
          ++ rest.dropWhile isSpace)
      else none
    else none

/-- The scan of `String.prototype.split` with separator `\n\s*\n`:
characters are accumulated (in reverse) into the current block until the
separator matches, which ends the block.  Fuel bounds the recursion as
in `execLoop`. -/
def splitGo : Nat → List Char → List Char → List (List Char)
  | 0, acc, l => [acc.reverse ++ l]
  | _ + 1, acc, [] => [acc.reverse]
  | fuel + 1, acc, c :: rest =>
    match sepMatch (c :: rest) with
    | some rem => acc.reverse :: splitGo fuel [] rem
    | none => splitGo fuel (c :: acc) rest

/-- The blocks of the fallback strategy:
`textResponse.split(/\n\s*\n/).filter(Boolean)` (server.js line 71);
`filter(Boolean)` discards the empty-string blocks. -/
def blocksOf (l : List Char) : List (List Char) :=
  (splitGo l.length [] l).filter fun b => !b.isEmpty

/-- Scan of the lazy group `(.*?)(?:\n|$)` of the fallback regexes: the
group (without the dotall flag, so `.` refuses line terminators) stops
at the first line feed or at the end of the input; a carriage return or
other line terminator that is not a line feed blocks the match. -/
def lazyToNl : List Char → Option (List Char)
  | [] => some []
  | c :: rest =>
    if c == '\n' then some []
    else if isLineTerm c then none
    else
      match lazyToNl rest with
      | some g => some (c :: g)
      | none => none

/-- Backtracking of the greedy `\s*` of the fallback regexes: the engine
first gives the whole whitespace run to `\s*` (so the group starts after
it) and, on failure, moves characters from the end of the run back into
the group one at a time.  The first argument is the still-unconsumed
part of the run, reversed. -/
def wsTailGo : List Char → List Char → Option (List Char)
  | [], t => lazyToNl t
  | c :: wRev, t =>
    match lazyToNl t with
    | some g => some g
    | none => wsTailGo wRev (c :: t)

/-- Matching of `\s*(.*?)(?:\n|$)` against the text following a marker
in the fallback regexes, combining the greedy-whitespace backtracking
with the lazy group scan.  Returns the capture group on success. -/
def matchTail (l : List Char) : Option (List Char) :=
  wsTailGo (l.takeWhile isSpace).reverse (l.dropWhile isSpace)

/-- Leftmost match of the fallback question regex `/Q:\s*(.*?)(?:\n|$)/i`
(server.js line 74): the first case-insensitive `Q:` from which the rest
of the pattern matches; on failure the engine retries one character
further. -/
def qLineMatch : List Char → Option (List Char)
  | [] => none
  | c :: rest =>
    if startsQ (c :: rest) then
      match matchTail ((c :: rest).drop 2) with
      | some g => some g
      | none => qLineMatch rest
    else qLineMatch rest

/-- Leftmost match of the fallback answer regex `/A:\s*(.*?)(?:\n|$)/i`
(server.js line 75). -/
def aLineMatch : List Char → Option (List Char)
  | [] => none
  | c :: rest =>
    if startsA (c :: rest) then
      match matchTail ((c :: rest).drop 2) with
      | some g => some g
      | none => aLineMatch rest
    else aLineMatch rest

/-- Contribution of one block in the fallback loop (server.js lines
73-85): a card is produced only when both fallback regexes match and
both captured contents are non-empty after trimming. -/
def blockCard (b : List Char) : Option Card :=
  match qLineMatch b, aLineMatch b with
  | some qg, some ag =>
    let q := trim qg
    let a := trim ag
    if q.isEmpty || a.isEmpty then none else some ⟨q, a⟩
  | _, _ => none

/-- Cards produced by the fallback strategy (server.js lines 69-86). -/
def fallbackCards (l : List Char) : List Card :=
  (blocksOf l).filterMap blockCard

/-- Embedding of `parseGeminiResponse` (server.js lines 51-90): the
primary regex strategy, and, only when it produced no card at all, the
blank-line block fallback. -/
def parseGeminiResponse (l : List Char) : List Card :=
  let cards := primaryCards l
  if cards.isEmpty then fallbackCards l else cards

/-- Does some suffix of the list begin with a question or answer marker
(case-insensitive `Q:` or `A:`)?  An input on which this is false has no
recognizable marker at all: plain prose.  Used to state the claim that
such inputs make both parsing strategies yield nothing. -/
def hasMarker : List Char → Bool
  | [] => false
  | c :: rest => startsQ (c :: rest) || startsA (c :: rest) || hasMarker rest

/-- A question/answer pair together with the formatting freedoms of a
well-formed generated block: the whitespace written after each marker
and the letter case of each marker. -/
structure QAPair where
  question : List Char
  answer : List Char
  wsq : List Char
  wsa : List Char
  qlow : Bool
  alow : Bool
deriving Repr

/-- The question marker letter of an encoded pair. -/
def qMarkChar (p : QAPair) : Char := if p.qlow then 'q' else 'Q'

/-- The answer marker letter of an encoded pair. -/
def aMarkChar (p : QAPair) : Char := if p.alow then 'a' else 'A'

/-- One well-formed block: marker, optional whitespace, question
content, newline, marker, optional whitespace, answer content. -/
def encodePair (p : QAPair) : List Char :=
  qMarkChar p :: ':' :: (p.wsq ++ p.question ++
    '\n' :: aMarkChar p :: ':' :: (p.wsa ++ p.answer))

/-- A sequence of well-formed blocks separated by blank lines. -/
def encodeAll : List QAPair → List Char
  | [] => []
  | [p] => encodePair p
  | p :: q :: ps => encodePair p ++ '\n' :: '\n' :: encodeAll (q :: ps)

/-- Well-formedness of an encoded pair: contents do not trim to nothing
and contain no line feed, and the optional marker padding is whitespace. -/
def WfPair (p : QAPair) : Prop :=
  trim p.question ≠ [] ∧ trim p.answer ≠ [] ∧
  '\n' ∉ p.question ∧ '\n' ∉ p.answer ∧
  (∀ c ∈ p.wsq, isSpace c = true) ∧ (∀ c ∈ p.wsa, isSpace c = true)

instance (p : QAPair) : Decidable (WfPair p) := by
  unfold WfPair; infer_instance

/-! The HTTP endpoint `POST /generate_questions` (server.js lines
92-171).  The external generative-language call is modelled as an
oracle argument: its outcome is either the raw text reply or a thrown
error; the handler result records whether that collaborator was
reached at all. -/

/-- Body of an HTTP reply of the endpoint: either the success payload
`{ generated_cards: ... }` or an `{ error: ... }` object. -/
inductive ApiBody where
  | cards (cs : List Card)
  | error (msg : String)
deriving DecidableEq, Repr

/-- An HTTP reply: status code and JSON body. -/
structure Reply where
  status : Nat
  body : ApiBody
deriving DecidableEq, Repr

/-- Outcome of the external Gemini call: the text of a successful reply,
or a thrown error (network failure, safety block, and so on). -/
inductive GeminiOutcome where
  | reply (text : List Char)
  | failure
deriving Repr

/-- Result of one handler invocation: the HTTP reply sent, and whether
the external collaborator was invoked. -/
structure HandlerRun where
  reply : Reply
  geminiInvoked : Bool
deriving DecidableEq, Repr

/-- Error message of the 400 reply for absent (or empty, since an empty
string is falsy in JavaScript) request text (server.js line 102). -/
def missingTextMsg : String := "Missing \x27text\x27 in request body"

/-- Error message of the 400 reply for oversized text (server.js line 109). -/
def tooLargeMsg : String := "Input text is too large. Please limit to 10,000 characters."

/-- Error message of the 503 reply when the API key is absent. -/
def noKeyMsg : String := "Server configuration error: AI Service not available"

/-- Error message of the 500 reply when parsing yields no card
(server.js line 155). -/
def parseFailMsg : String :=
  "Could not parse Q&A pairs from the generated text. The AI might not have followed the format. Please try again or adjust the input text."

/-- Error message of the 500 reply for any other failure (server.js line 168). -/
def genericErrMsg : String := "An unexpected error occurred while generating questions."

/-- Embedding of the `app.post("/generate_questions")` handler
(server.js lines 92-171).  `hasKey` is the presence of
`GEMINI_API_KEY`; `text?` is the `text` field of the request body
(`none` when absent); `gemini` is the outcome the external collaborator
would produce if invoked.  The JavaScript test `if (!text)` is true for
an absent field and for the empty string, both giving the same 400. -/
def generateQuestionsHandler (hasKey : Bool) (text? : Option (List Char))
    (gemini : GeminiOutcome) : HandlerRun :=
  if !hasKey then ⟨⟨503, .error noKeyMsg⟩, false⟩
  else
    match text? with
    | none => ⟨⟨400, .error missingTextMsg⟩, false⟩
    | some text =>
      if text.isEmpty then ⟨⟨400, .error missingTextMsg⟩, false⟩
      else if text.length > 10000 then ⟨⟨400, .error tooLargeMsg⟩, false⟩
      else
        match gemini with
        | .failure => ⟨⟨500, .error genericErrMsg⟩, true⟩
        | .reply r =>
          let formattedCards := parseGeminiResponse r
          if formattedCards.length == 0 then ⟨⟨500, .error parseFailMsg⟩, true⟩
          else ⟨⟨200, .cards formattedCards⟩, true⟩

/-! The client-side wrapper `generateAICards`
(src/flashmob-app/src/components/AiService.jsx).  The fetch to the
backend is modelled as an oracle outcome; the wrapper result records
whether the fetch was issued, the timeout passed to
`AbortSignal.timeout`, and the state updates performed. -/

/-- Milliseconds passed to `AbortSignal.timeout` in the fetch options
(AiService.jsx line 31). -/
def aiFetchTimeoutMs : Nat := 45000

/-- Outcome of the fetch as observed by `generateAICards`: the abort
signal fired (a `TimeoutError`), a non-ok HTTP reply carrying an
optional parsed error field, an ok reply without a proper
`generated_cards` array, or an ok reply with one. -/
inductive FetchOutcome where
  | timeout
  | httpError (status : Nat) (errorField : Option String)
  | okBadFormat
  | okCards (cs : List Card)
deriving Repr

/-- Visible result of `generateAICards`: either a success message with
the cards handed to `setAiGeneratedCards`, or an error message handed
to `setErrorMessage`. -/
inductive ClientResult where
  | success (cards : List Card) (message : String)
  | failure (message : String)
deriving DecidableEq, Repr

/-- One run of `generateAICards`: whether the fetch was issued, the
timeout it carried, and the visible result. -/
structure ClientRun where
  fetched : Bool
  timeoutMs : Option Nat
  result : ClientResult
deriving DecidableEq, Repr

/-- Message of the validation error thrown before any fetch when the
trimmed prompt is empty (AiService.jsx line 19). -/
def emptyPromptMsg : String := "Please enter text to generate questions from"

/-- User-facing message substituted when the caught error is named
`TimeoutError` (AiService.jsx line 62). -/
def timeoutUserMsg : String := "The request to generate questions timed out. Please try again later."

/-- Message thrown when the ok reply has no `generated_cards` array
(AiService.jsx line 56). -/
def badFormatMsg : String := "Invalid response format from AI server"

/-- Default error message for a non-ok HTTP status, used when the reply
body has no usable `error` field (AiService.jsx line 35). -/
def serviceErrMsg (status : Nat) : String := "AI Service Error: " ++ toString status

/-- Success message shown for an ok reply (AiService.jsx lines 50-54). -/
def successMsg (cs : List Card) : String :=
  if cs.isEmpty then
    "AI processing complete, but no cards were generated. Try adjusting your input text."
  else "Generated " ++ toString cs.length ++ " cards. Review below."

/-- Embedding of `generateAICards` (AiService.jsx lines 13-68).  The
guard `if (!textPrompt.trim())` throws before the fetch; a thrown
`TimeoutError` is mapped to `timeoutUserMsg`; a non-ok reply throws the
error field of its body when that is a non-empty string, the default
service message otherwise. -/
def generateAICards (textPrompt : List Char) (outcome : FetchOutcome) : ClientRun :=
  if (trim textPrompt).isEmpty then ⟨false, none, .failure emptyPromptMsg⟩
  else
    match outcome with
    | .timeout => ⟨true, some aiFetchTimeoutMs, .failure timeoutUserMsg⟩
    | .httpError st ef =>
      let msg :=
        match ef with
        | some e => if e.isEmpty then serviceErrMsg st else e
        | none => serviceErrMsg st
      ⟨true, some aiFetchTimeoutMs, .failure msg⟩
    | .okBadFormat => ⟨true, some aiFetchTimeoutMs, .failure badFormatMsg⟩
    | .okCards cs => ⟨true, some aiFetchTimeoutMs, .success cs (successMsg cs)⟩

/-! Auxiliary lemmas: whitespace runs and trimming. -/

theorem dropWhile_all {p : α → Bool} {u v : List α} (h : ∀ c ∈ u, p c = true) :
    (u ++ v).dropWhile p = v.dropWhile p := by
  rw [List.dropWhile_append, List.dropWhile_eq_nil_iff.2 h]
  simp

theorem takeWhile_all {p : α → Bool} {u v : List α} (h : ∀ c ∈ u, p c = true) :
    (u ++ v).takeWhile p = u ++ v.takeWhile p := by
  rw [List.takeWhile_append, List.takeWhile_eq_self_iff.2 h]
  simp

theorem dropWhile_stick {p : α → Bool} {u : List α} (v : List α)
    (h : u.dropWhile p ≠ []) : (u ++ v).dropWhile p = u.dropWhile p ++ v := by
  rw [List.dropWhile_append, if_neg]
  simp [List.isEmpty_iff, h]

theorem takeWhile_stick {p : α → Bool} {u : List α} (v : List α)
    (h : u.dropWhile p ≠ []) : (u ++ v).takeWhile p = u.takeWhile p := by
  rw [List.takeWhile_append, if_neg]
  intro hlen
  have h2 := congrArg List.length (List.takeWhile_append_dropWhile p u)
  rw [List.length_append] at h2
  exact h (List.length_eq_zero.1 (by omega))

theorem mem_dropWhile {p : α → Bool} {l : List α} {c : α}
    (h : c ∈ l.dropWhile p) : c ∈ l := by
  conv => rw [← List.takeWhile_append_dropWhile p l]
  exact List.mem_append.2 (Or.inr h)

theorem dropWhile_length_le {p : α → Bool} (l : List α) :
    (l.dropWhile p).length ≤ l.length := by
  conv_rhs => rw [← List.takeWhile_append_dropWhile p l]
  rw [List.length_append]
  omega

theorem dropWhile_idem {p : α → Bool} (l : List α) :
    (l.dropWhile p).dropWhile p = l.dropWhile p := by
  induction l with
  | nil => rfl
  | cons c rest ih =>
    simp only [List.dropWhile_cons]
    split
    · exact ih
    · next h => rw [List.dropWhile_cons, if_neg h]

theorem trimLeft_idem (l : List Char) : trimLeft (trimLeft l) = trimLeft l :=
  dropWhile_idem l

theorem trimRight_idem (l : List Char) : trimRight (trimRight l) = trimRight l := by
  unfold trimRight
  rw [List.reverse_reverse, dropWhile_idem]

theorem trimLeft_eq_nil_iff {l : List Char} :
    trimLeft l = [] ↔ ∀ c ∈ l, isSpace c = true :=
  List.dropWhile_eq_nil_iff

theorem trimRight_eq_nil_iff {l : List Char} :
    trimRight l = [] ↔ ∀ c ∈ l, isSpace c = true := by
  unfold trimRight
  rw [List.reverse_eq_nil_iff, List.dropWhile_eq_nil_iff]
  constructor <;> intro h c hc
  · exact h c (List.mem_reverse.2 hc)
  · exact h c (List.mem_reverse.1 hc)

theorem trim_eq_nil_iff {l : List Char} :
    trim l = [] ↔ ∀ c ∈ l, isSpace c = true := by
  unfold trim
  rw [trimRight_eq_nil_iff]
  constructor
  · intro h c hc
    rw [← List.takeWhile_append_dropWhile isSpace l] at hc
    rcases List.mem_append.1 hc with h1 | h1
    · exact List.mem_takeWhile_imp h1
    · exact h c h1
  · intro h c hc
    exact h c (mem_dropWhile hc)

theorem trimLeft_ne_nil_of_trim {l : List Char} (h : trim l ≠ []) :
    trimLeft l ≠ [] := by
  intro h2
  exact h (trim_eq_nil_iff.2 (trimLeft_eq_nil_iff.1 h2))

theorem trimRight_cons_of_not_all {c : Char} {u : List Char}
    (h : ¬∀ x ∈ c :: u, isSpace x = true) :
    trimRight (c :: u) = c :: trimRight u := by
  unfold trimRight
  rw [List.reverse_cons]
  by_cases hu : u.reverse.dropWhile isSpace = []
  · have huws : ∀ x ∈ u, isSpace x = true := by
      intro x hx
      exact List.dropWhile_eq_nil_iff.1 hu x (List.mem_reverse.2 hx)
    have hc : ¬isSpace c = true := by
      intro hc'
      exact h (by
        intro x hx
        rcases List.mem_cons.1 hx with rfl | hx
        · exact hc'
        · exact huws x hx)
    rw [dropWhile_all fun x hx => List.dropWhile_eq_nil_iff.1 hu x hx]
    rw [List.dropWhile_cons, if_neg hc, hu]
    rfl
  · rw [dropWhile_stick _ hu, List.reverse_append]
    rfl

theorem trimLeft_fixed_head {c : Char} {rest : List Char}
    (hc : isSpace c = false) : trimLeft (c :: rest) = c :: rest := by
  unfold trimLeft
  rw [List.dropWhile_cons, if_neg (by simp [hc])]

theorem trim_trimLeft (l : List Char) : trim (trimLeft l) = trim l := by
  unfold trim
  rw [trimLeft_idem]

theorem trim_idem (l : List Char) : trim (trim l) = trim l := by
  unfold trim
  rcases hm : trimLeft l with _ | ⟨c, rest⟩
  · rfl
  · have hfix : trimLeft (c :: rest) = c :: rest := by rw [← hm, trimLeft_idem]
    have hc : isSpace c = false := by
      by_contra hc'
      have hc'' : isSpace c = true := by
        cases h : isSpace c
        · exact absurd h hc'
        · rfl
      have := congrArg List.length hfix
      unfold trimLeft at this
      rw [List.dropWhile_cons, if_pos hc''] at this
      have hlen := dropWhile_length_le (p := isSpace) rest
      simp at this
      omega
    by_cases hall : ∀ x ∈ c :: rest, isSpace x = true
    · exact absurd (hall c (List.mem_cons_self c rest)) (by simp [hc])
    · rw [trimRight_cons_of_not_all hall]
      have h2 : trimLeft (c :: trimRight rest) = c :: trimRight rest :=
        trimLeft_fixed_head hc
      rw [h2, ← trimRight_cons_of_not_all hall, trimRight_idem]

/-! Auxiliary lemmas: lengths consumed by the scanners, and fuel
irrelevance of the exec loop. -/

theorem startsA_two {l : List Char} (h : startsA l = true) : 2 ≤ l.length := by
  rcases l with _ | ⟨c, _ | ⟨d, t⟩⟩
  · simp [startsA] at h
  · simp [startsA] at h
  · simp only [List.length_cons]
    omega

theorem contains_ne_nil {l : List Char} {c : Char} (h : l.contains c = true) :
    l ≠ [] := by
  intro h2
  rw [h2] at h
  simp at h

theorem scanTail_length : ∀ {l g r : List Char},
    scanTail l = some (g, r) → r.length + 3 ≤ l.length := by
  intro l
  induction l with
  | nil => intro g r h; simp [scanTail] at h
  | cons c rest ih =>
    intro g r h
    rw [scanTail] at h
    split at h
    · next hws =>
      rw [wsNlA, Bool.and_eq_true] at hws
      obtain ⟨h1, h2⟩ := hws
      have h3 : ((c :: rest).takeWhile isSpace) ≠ [] := contains_ne_nil h1
      have h4 : 2 ≤ ((c :: rest).dropWhile isSpace).length := startsA_two h2
      have h5 := congrArg List.length (List.takeWhile_append_dropWhile isSpace (c :: rest))
      rw [List.length_append] at h5
      have h6 : 1 ≤ ((c :: rest).takeWhile isSpace).length := by
        rcases hx : (c :: rest).takeWhile isSpace with _ | _
        · exact absurd hx h3
        · simp
      rw [Option.some_inj] at h
      injection h with hg hr
      rw [← hr, List.length_drop]
      simp only [List.length_cons] at h5 ⊢
      omega
    · next =>
      rcases hx : scanTail rest with _ | ⟨g', r'⟩
      · rw [hx] at h; simp at h
      · rw [hx] at h
        simp at h
        have := ih hx
        rcases h with ⟨-, rfl⟩
        simp only [List.length_cons]
        omega

theorem scanQcontent_length {l g r : List Char}
    (h : scanQcontent l = some (g, r)) : r.length + 3 ≤ l.length := by
  rw [scanQcontent] at h
  rcases hx : scanTail (l.dropWhile isSpace) with _ | ⟨g', r'⟩
  · rw [hx] at h
    simp at h
    obtain ⟨⟨h1, h2⟩, -, hr⟩ := h
    have h3 : (l.takeWhile isSpace) ≠ [] := List.ne_nil_of_mem h1
    have h4 : 2 ≤ (l.dropWhile isSpace).length := startsA_two h2
    have h5 := congrArg List.length (List.takeWhile_append_dropWhile isSpace l)
    rw [List.length_append] at h5
    have h6 : 1 ≤ (l.takeWhile isSpace).length := by
      rcases hy : l.takeWhile isSpace with _ | _
      · exact absurd hy h3
      · simp
    rw [← hr, List.length_drop]
    omega
  · rw [hx] at h
    simp at h
    rcases h with ⟨rfl, rfl⟩
    have h1 := scanTail_length hx
    have h2 := dropWhile_length_le (p := isSpace) l
    omega
theorem scanAcontent_length : ∀ l : List Char, (scanAcontent l).2.length ≤ l.length := by
  intro l
  induction l with
  | nil => simp [scanAcontent]
  | cons c rest ih =>
    rw [scanAcontent]
    split
    · simp
    · simp
      omega

theorem execLoop_fuel_irrel : ∀ (n f₁ f₂ : Nat) (l : List Char),
    l.length ≤ n → l.length ≤ f₁ → l.length ≤ f₂ →
    execLoop f₁ l = execLoop f₂ l := by
  intro n
  induction n with
  | zero =>
    intro f₁ f₂ l hn _ _
    have : l = [] := by
      rcases l with _ | _
      · rfl
      · simp at hn
    subst this
    cases f₁ <;> cases f₂ <;> rfl
  | succ n ih =>
    intro f₁ f₂ l hn h1 h2
    rcases l with _ | ⟨c, rest⟩
    · cases f₁ <;> cases f₂ <;> rfl
    · rcases f₁ with _ | a
      · simp at h1
      rcases f₂ with _ | b
      · simp at h2
      simp only [List.length_cons] at hn h1 h2
      simp only [execLoop]
      split
      · rcases hsc : scanQcontent ((c :: rest).drop 2) with _ | ⟨q, afterA⟩
        · exact ih a b rest (by omega) (by omega) (by omega)
        · have hlen := scanQcontent_length hsc
          rw [List.length_drop] at hlen
          simp only [List.length_cons] at hlen
          have hrem : (scanAcontent (afterA.dropWhile isSpace)).2.length ≤ afterA.length := by
            have ha := scanAcontent_length (afterA.dropWhile isSpace)
            have hb := dropWhile_length_le (p := isSpace) afterA
            omega
          exact congrArg (fun t => (q, (scanAcontent (afterA.dropWhile isSpace)).1) :: t)
            (ih a b (scanAcontent (afterA.dropWhile isSpace)).2
              (by omega) (by omega) (by omega))
      · exact ih a b rest (by omega) (by omega) (by omega)

theorem primaryMatches_skip {c : Char} {l : List Char}
    (h : startsQ (c :: l) = false) : primaryMatches (c :: l) = primaryMatches l := by
  show execLoop (l.length + 1) (c :: l) = execLoop l.length l
  simp only [execLoop, h]
  simp

theorem mem_takeWhile {p : α → Bool} {l : List α} {c : α}
    (h : c ∈ l.takeWhile p) : c ∈ l := by
  conv => rw [← List.takeWhile_append_dropWhile p l]
  exact List.mem_append.2 (Or.inl h)

theorem dropWhile_ne_nil_of_not_all {p : α → Bool} {l : List α}
    (h : ¬∀ x ∈ l, p x = true) : l.dropWhile p ≠ [] :=
  fun h2 => h (List.dropWhile_eq_nil_iff.1 h2)

theorem startsQ_not_marker {c : Char} (h : (c == 'Q' || c == 'q') = false)
    (l : List Char) : startsQ (c :: l) = false := by
  rcases l with _ | ⟨d, t⟩
  · rfl
  · simp only [startsQ]
    rw [h]
    rfl

theorem startsQ_head_not_space {l : List Char} (h : startsQ l = true) :
    l.dropWhile isSpace = l := by
  rcases l with _ | ⟨c, _ | ⟨d, t⟩⟩
  · rfl
  · simp [startsQ] at h
  · simp only [startsQ, Bool.and_eq_true, Bool.or_eq_true] at h
    obtain ⟨hc, -⟩ := h
    have hcs : isSpace c = false := by
      rcases hc with hc | hc <;> rw [beq_iff_eq] at hc <;> subst hc <;> decide
    rw [List.dropWhile_cons, if_neg (by simp [hcs])]

theorem scanTail_encode : ∀ (u : List Char), '\n' ∉ u →
    ∀ (m : Char), m = 'A' ∨ m = 'a' → ∀ (rest : List Char),
    scanTail (u ++ '\n' :: m :: ':' :: rest) = some (trimRight u, rest) := by
  intro u
  induction u with
  | nil =>
    intro _ m hm rest
    have hm2 : isSpace m = false := by rcases hm with rfl | rfl <;> decide
    have ht : ('\n' :: m :: ':' :: rest).takeWhile isSpace = ['\n'] := by
      rw [List.takeWhile_cons, if_pos (by decide), List.takeWhile_cons,
        if_neg (by simp [hm2])]
    have hd : ('\n' :: m :: ':' :: rest).dropWhile isSpace = m :: ':' :: rest := by
      rw [List.dropWhile_cons, if_pos (by decide), List.dropWhile_cons,
        if_neg (by simp [hm2])]
    have hcond : wsNlA ('\n' :: m :: ':' :: rest) = true := by
      rw [wsNlA, ht, hd]
      have hsa : startsA (m :: ':' :: rest) = true := by
        rcases hm with rfl | rfl <;> simp [startsA]
      rw [hsa]
      simp
    rw [List.nil_append, scanTail, if_pos hcond, hd]
    rfl
  | cons c u ih =>
    intro hnotin m hm rest
    simp only [List.mem_cons, not_or] at hnotin
    obtain ⟨hc1, hnotin⟩ := hnotin
    rw [List.cons_append]
    by_cases hall : ∀ x ∈ c :: u, isSpace x = true
    · have hm2 : isSpace m = false := by rcases hm with rfl | rfl <;> decide
      have hconsws : ∀ x ∈ (c :: u : List Char), isSpace x = true := hall
      have ht : ((c :: u) ++ '\n' :: m :: ':' :: rest).takeWhile isSpace
          = (c :: u) ++ ['\n'] := by
        rw [takeWhile_all hconsws, List.takeWhile_cons, if_pos (by decide),
          List.takeWhile_cons, if_neg (by simp [hm2])]
      have hd : ((c :: u) ++ '\n' :: m :: ':' :: rest).dropWhile isSpace
          = m :: ':' :: rest := by
        rw [dropWhile_all hconsws, List.dropWhile_cons, if_pos (by decide),
          List.dropWhile_cons, if_neg (by simp [hm2])]
      have hcond : wsNlA (c :: (u ++ '\n' :: m :: ':' :: rest)) = true := by
        rw [wsNlA]
        rw [← List.cons_append, ht, hd]
        have hsa : startsA (m :: ':' :: rest) = true := by
          rcases hm with rfl | rfl <;> simp [startsA]
        rw [hsa]
        simp
      rw [scanTail, if_pos hcond]
      rw [← List.cons_append, hd]
      rw [trimRight_eq_nil_iff.2 hall]
      rfl
    · have hdrop : (c :: u).dropWhile isSpace ≠ [] := dropWhile_ne_nil_of_not_all hall
      have ht : ((c :: u) ++ '\n' :: m :: ':' :: rest).takeWhile isSpace
          = (c :: u).takeWhile isSpace := takeWhile_stick _ hdrop
      have hcontains : ((c :: u).takeWhile isSpace).contains '\n' = false := by
        rcases hx : ((c :: u).takeWhile isSpace).contains '\n' with _ | _
        · rfl
        · exfalso
          have : ('\n' : Char) ∈ (c :: u).takeWhile isSpace := by
            simpa using hx
          have := mem_takeWhile this
          rcases List.mem_cons.1 this with h | h
          · exact hc1 h
          · exact hnotin h
      have hcond : wsNlA (c :: (u ++ '\n' :: m :: ':' :: rest)) = false := by
        rw [wsNlA, ← List.cons_append, ht, hcontains]
        rfl
      rw [scanTail, if_neg (by simp [hcond]), ih hnotin m hm rest]
      rw [trimRight_cons_of_not_all hall]

theorem scanQcontent_encode {w q : List Char} (hw : ∀ c ∈ w, isSpace c = true)
    (hq : '\n' ∉ q) (hq2 : trim q ≠ []) {m : Char} (hm : m = 'A' ∨ m = 'a')
    (rest : List Char) :
    scanQcontent (w ++ (q ++ '\n' :: m :: ':' :: rest)) = some (trim q, rest) := by
  have h1 : trimLeft q ≠ [] := trimLeft_ne_nil_of_trim hq2
  have hd : (w ++ (q ++ '\n' :: m :: ':' :: rest)).dropWhile isSpace
      = trimLeft q ++ '\n' :: m :: ':' :: rest := by
    rw [dropWhile_all hw, dropWhile_stick _ h1]
    rfl
  have hq3 : '\n' ∉ trimLeft q := fun hmem => hq (mem_dropWhile hmem)
  rw [scanQcontent, hd, scanTail_encode (trimLeft q) hq3 m hm rest]
  rfl

theorem scanAcontent_no_nl {u : List Char} (hu : '\n' ∉ u) :
    scanAcontent u = (u, []) := by
  induction u with
  | nil => rfl
  | cons c rest ih =>
    simp only [List.mem_cons, not_or] at hu
    obtain ⟨hc1, hu⟩ := hu
    have hbeq : (c == '\n') = false := by
      rw [beq_eq_false_iff_ne]
      exact fun h => hc1 h.symm
    rw [scanAcontent, if_neg (by simp [nlWsQ, hbeq]), ih hu]

theorem scanAcontent_stop {u : List Char} (hu : '\n' ∉ u) {t : List Char}
    (h : nlWsQ ('\n' :: t) = true) :
    scanAcontent (u ++ '\n' :: t) = (u, '\n' :: t) := by
  induction u with
  | nil => rw [List.nil_append, scanAcontent, if_pos h]
  | cons c rest ih =>
    simp only [List.mem_cons, not_or] at hu
    obtain ⟨hc1, hu⟩ := hu
    have hbeq : (c == '\n') = false := by
      rw [beq_eq_false_iff_ne]
      exact fun h2 => hc1 h2.symm
    rw [List.cons_append, scanAcontent, if_neg (by simp [nlWsQ, hbeq]), ih hu]

theorem primaryMatches_step {c : Char} {rest q afterA : List Char}
    (h : startsQ (c :: rest) = true)
    (hsc : scanQcontent ((c :: rest).drop 2) = some (q, afterA)) :
    primaryMatches (c :: rest) =
      (q, (scanAcontent (afterA.dropWhile isSpace)).1) ::
        primaryMatches (scanAcontent (afterA.dropWhile isSpace)).2 := by
  show execLoop (rest.length + 1) (c :: rest) = _
  simp only [execLoop, h, if_true]
  rw [hsc]
  have hlen := scanQcontent_length hsc
  rw [List.length_drop] at hlen
  simp only [List.length_cons] at hlen
  have hrem : (scanAcontent (afterA.dropWhile isSpace)).2.length ≤ afterA.length := by
    have ha := scanAcontent_length (afterA.dropWhile isSpace)
    have hb := dropWhile_length_le (p := isSpace) afterA
    omega
  exact congrArg (fun t => (q, (scanAcontent (afterA.dropWhile isSpace)).1) :: t)
    (execLoop_fuel_irrel rest.length rest.length
      (scanAcontent (afterA.dropWhile isSpace)).2.length
      (scanAcontent (afterA.dropWhile isSpace)).2 (by omega) (by omega) (by omega))

/-! The primary strategy on sequences of well-formed encoded blocks. -/

theorem startsQ_qmark (p : QAPair) (t : List Char) :
    startsQ (qMarkChar p :: ':' :: t) = true := by
  rcases hb : p.qlow <;> simp [qMarkChar, hb, startsQ]

theorem startsQ_encodeAll (p : QAPair) (ps : List QAPair) :
    startsQ (encodeAll (p :: ps)) = true := by
  rcases ps with _ | ⟨r, ps'⟩
  · rw [show encodeAll [p] = encodePair p from rfl, encodePair]
    exact startsQ_qmark p _
  · rw [show encodeAll (p :: r :: ps')
        = encodePair p ++ '\n' :: '\n' :: encodeAll (r :: ps') from rfl,
      encodePair, List.cons_append, List.cons_append]
    exact startsQ_qmark p _

theorem aMark_cases (p : QAPair) : aMarkChar p = 'A' ∨ aMarkChar p = 'a' := by
  rcases hb : p.alow <;> simp [aMarkChar, hb]

theorem primaryMatches_encodePair_nil (p : QAPair) (hp : WfPair p) :
    primaryMatches (encodePair p) = [(trim p.question, trimLeft p.answer)] := by
  obtain ⟨hq2, ha2, hqn, han, hwsq, hwsa⟩ := hp
  rw [encodePair, List.append_assoc]
  rw [primaryMatches_step (q := trim p.question)
    (startsQ_qmark p _)
    (scanQcontent_encode hwsq hqn hq2 (aMark_cases p) (p.wsa ++ p.answer))]
  have ha3 : '\n' ∉ trimLeft p.answer := fun hmem => han (mem_dropWhile hmem)
  have hdw : (p.wsa ++ p.answer).dropWhile isSpace = trimLeft p.answer :=
    dropWhile_all hwsa
  rw [hdw, scanAcontent_no_nl ha3]
  rfl

theorem primaryMatches_encodePair_cons (p : QAPair) (hp : WfPair p)
    (r₃ : List Char) (hr : startsQ r₃ = true) :
    primaryMatches (encodePair p ++ '\n' :: '\n' :: r₃) =
      (trim p.question, trimLeft p.answer) :: primaryMatches r₃ := by
  obtain ⟨hq2, ha2, hqn, han, hwsq, hwsa⟩ := hp
  have key : encodePair p ++ '\n' :: '\n' :: r₃
      = qMarkChar p :: ':' :: (p.wsq ++ (p.question ++
          '\n' :: aMarkChar p :: ':' :: (p.wsa ++ (p.answer ++ '\n' :: '\n' :: r₃)))) := by
    simp [encodePair, List.append_assoc]
  rw [key]
  rw [primaryMatches_step (q := trim p.question)
    (startsQ_qmark p _)
    (scanQcontent_encode hwsq hqn hq2 (aMark_cases p)
      (p.wsa ++ (p.answer ++ '\n' :: '\n' :: r₃)))]
  have h1 : trimLeft p.answer ≠ [] := trimLeft_ne_nil_of_trim ha2
  have ha3 : '\n' ∉ trimLeft p.answer := fun hmem => han (mem_dropWhile hmem)
  have hdw : (p.wsa ++ (p.answer ++ '\n' :: '\n' :: r₃)).dropWhile isSpace
      = trimLeft p.answer ++ '\n' :: '\n' :: r₃ := by
    rw [dropWhile_all hwsa, dropWhile_stick _ h1]
    rfl
  have hnl : nlWsQ ('\n' :: '\n' :: r₃) = true := by
    simp only [nlWsQ]
    rw [List.dropWhile_cons, if_pos (by decide), startsQ_head_not_space hr, hr]
    rfl
  rw [hdw, scanAcontent_stop ha3 hnl]
  have hskip1 : startsQ ('\n' :: '\n' :: r₃) = false :=
    startsQ_not_marker (by decide) _
  have hskip2 : startsQ ('\n' :: r₃) = false :=
    startsQ_not_marker (by decide) _
  rw [primaryMatches_skip hskip1, primaryMatches_skip hskip2]

theorem primaryMatches_encodeAll : ∀ ps : List QAPair, (∀ p ∈ ps, WfPair p) →
    primaryMatches (encodeAll ps)
      = ps.map fun p => (trim p.question, trimLeft p.answer) := by
  intro ps
  induction ps with
  | nil => intro _; rfl
  | cons p ps ih =>
    intro h
    rcases ps with _ | ⟨q, ps'⟩
    · rw [show encodeAll [p] = encodePair p from rfl,
        primaryMatches_encodePair_nil p (h p (by simp))]
      rfl
    · rw [show encodeAll (p :: q :: ps')
          = encodePair p ++ '\n' :: '\n' :: encodeAll (q :: ps') from rfl,
        primaryMatches_encodePair_cons p (h p (by simp)) _ (startsQ_encodeAll q ps'),
        ih (fun r hr => h r (by simp [hr]))]
      rfl

theorem primaryCards_encodeAll (ps : List QAPair) (h : ∀ p ∈ ps, WfPair p) :
    primaryCards (encodeAll ps)
      = ps.map fun p => Card.mk (trim p.question) (trim p.answer) := by
  rw [primaryCards, primaryMatches_encodeAll ps h, List.filterMap_map]
  induction ps with
  | nil => rfl
  | cons p ps ih =>
    have hp := h p (by simp)
    obtain ⟨hq2, ha2, -, -, -, -⟩ := hp
    have hqe : (trim p.question).isEmpty = false := by
      rcases hx : trim p.question with _ | _
      · exact absurd hx hq2
      · rfl
    have hae : (trim p.answer).isEmpty = false := by
      rcases hx : trim p.answer with _ | _
      · exact absurd hx ha2
      · rfl
    rw [List.filterMap_cons, List.map_cons]
    have hfn : ((fun (pr : List Char × List Char) =>
        let q := trim pr.1
        let a := trim pr.2
        if q.isEmpty || a.isEmpty then none else some (Card.mk q a)) ∘
        (fun r : QAPair => (trim r.question, trimLeft r.answer))) p
        = some (Card.mk (trim p.question) (trim p.answer)) := by
      simp only [Function.comp_apply, trim_idem, trim_trimLeft]
      rw [if_neg]
      simp [hqe, hae]
    rw [hfn, ih (fun r hr => h r (by simp [hr]))]

/-! Inputs without any recognizable marker. -/

theorem startsQ_append {l w : List Char} (h : startsQ l = true) :
    startsQ (l ++ w) = true := by
  rcases l with _ | ⟨c, _ | ⟨d, t⟩⟩
  · simp [startsQ] at h
  · simp [startsQ] at h
  · exact h

theorem startsA_append {l w : List Char} (h : startsA l = true) :
    startsA (l ++ w) = true := by
  rcases l with _ | ⟨c, _ | ⟨d, t⟩⟩
  · simp [startsA] at h
  · simp [startsA] at h
  · exact h

theorem hasMarker_cons {c : Char} {rest : List Char}
    (h : hasMarker rest = true) : hasMarker (c :: rest) = true := by
  rw [hasMarker]
  simp [h]

theorem hasMarker_append {b w : List Char} (h : hasMarker b = true) :
    hasMarker (b ++ w) = true := by
  induction b with
  | nil => simp [hasMarker] at h
  | cons c rest ih =>
    rw [hasMarker] at h
    rw [List.cons_append, hasMarker]
    simp only [Bool.or_eq_true] at h ⊢
    rcases h with (h | h) | h
    · exact Or.inl (Or.inl (startsQ_append h))
    · exact Or.inl (Or.inr (startsA_append h))
    · exact Or.inr (ih h)

theorem hasMarker_left_ext {u b : List Char} (h : hasMarker b = true) :
    hasMarker (u ++ b) = true := by
  induction u with
  | nil => exact h
  | cons c rest ih => exact hasMarker_cons ih

theorem hasMarker_seg {l u b w : List Char} (hl : l = u ++ (b ++ w))
    (hb : hasMarker b = true) : hasMarker l = true := by
  subst hl
  exact hasMarker_left_ext (hasMarker_append hb)

theorem execLoop_no_marker : ∀ (f : Nat) (l : List Char),
    hasMarker l = false → execLoop f l = [] := by
  intro f
  induction f with
  | zero => intro l _; rfl
  | succ f ih =>
    intro l h
    rcases l with _ | ⟨c, rest⟩
    · rfl
    · rw [hasMarker] at h
      simp only [Bool.or_eq_false_iff] at h
      obtain ⟨⟨h1, -⟩, h3⟩ := h
      simp only [execLoop]
      rw [if_neg (by simp [h1])]
      exact ih rest h3

theorem primaryCards_no_marker {l : List Char} (h : hasMarker l = false) :
    primaryCards l = [] := by
  rw [primaryCards, primaryMatches, execLoop_no_marker l.length l h]
  rfl

theorem qLineMatch_marker : ∀ {b g : List Char},
    qLineMatch b = some g → hasMarker b = true := by
  intro b
  induction b with
  | nil => intro g h; simp [qLineMatch] at h
  | cons c rest ih =>
    intro g h
    rw [qLineMatch] at h
    split at h
    · next hs =>
      rw [hasMarker, hs]
      rfl
    · exact hasMarker_cons (ih h)

theorem blockCard_no_marker {b : List Char} (h : hasMarker b = false) :
    blockCard b = none := by
  rcases hx : qLineMatch b with _ | g
  · rw [blockCard, hx]
  · rw [qLineMatch_marker hx] at h
    exact absurd h (by simp)

theorem sepMatch_suffix : ∀ {l rem : List Char},
    sepMatch l = some rem → ∃ u, l = u ++ rem := by
  intro l rem h
  rcases l with _ | ⟨c, rest⟩
  · simp [sepMatch] at h
  · rw [sepMatch] at h
    split at h
    · split at h
      · next hrun =>
        rw [Option.some_inj] at h
        refine ⟨c :: ((rest.takeWhile isSpace).reverse.dropWhile
          (fun x => !(x == '\n'))).reverse, ?_⟩
        rw [← h, List.cons_append]
        congr 1
        have hsplit := List.takeWhile_append_dropWhile
          (fun x => !(x == '\n')) (rest.takeWhile isSpace).reverse
        have hrun2 : ((rest.takeWhile isSpace).reverse.dropWhile
              (fun x => !(x == '\n'))).reverse ++
            ((rest.takeWhile isSpace).reverse.takeWhile
              (fun x => !(x == '\n'))).reverse
            = rest.takeWhile isSpace := by
          rw [← List.reverse_append, hsplit, List.reverse_reverse]
        calc rest = rest.takeWhile isSpace ++ rest.dropWhile isSpace :=
              (List.takeWhile_append_dropWhile isSpace rest).symm
          _ = (((rest.takeWhile isSpace).reverse.dropWhile
                (fun x => !(x == '\n'))).reverse ++
              ((rest.takeWhile isSpace).reverse.takeWhile
                (fun x => !(x == '\n'))).reverse) ++ rest.dropWhile isSpace := by
              rw [hrun2]
          _ = _ := List.append_assoc _ _ _
      · simp at h
    · simp at h

theorem splitGo_seg : ∀ (f : Nat) (l acc b : List Char), b ∈ splitGo f acc l →
    (∃ v w, l = v ++ w ∧ b = acc.reverse ++ v) ∨ ∃ u w, l = u ++ (b ++ w) := by
  intro f
  induction f with
  | zero =>
    intro l acc b hb
    rw [splitGo] at hb
    simp only [List.mem_singleton] at hb
    exact Or.inl ⟨l, [], (List.append_nil l).symm, hb⟩
  | succ f ih =>
    intro l acc b hb
    rcases l with _ | ⟨c, rest⟩
    · rw [splitGo] at hb
      simp only [List.mem_singleton] at hb
      exact Or.inl ⟨[], [], rfl, by rw [hb, List.append_nil]⟩
    · rw [splitGo] at hb
      rcases hsep : sepMatch (c :: rest) with _ | rem
      · rw [hsep] at hb
        have hb2 : b ∈ splitGo f (c :: acc) rest := hb
        rcases ih rest (c :: acc) b hb2 with ⟨v, w, hvw, hbv⟩ | ⟨u, w, huw⟩
        · refine Or.inl ⟨c :: v, w, by rw [hvw, List.cons_append], ?_⟩
          rw [hbv, List.reverse_cons, List.append_assoc]
          rfl
        · exact Or.inr ⟨c :: u, w, by rw [huw, List.cons_append]⟩
      · rw [hsep] at hb
        obtain ⟨u₀, hu₀⟩ := sepMatch_suffix hsep
        have hb2 : b = acc.reverse ∨ b ∈ splitGo f [] rem := by
          simpa using hb
        rcases hb2 with rfl | hb2
        · exact Or.inl ⟨[], c :: rest, rfl, by rw [List.append_nil]⟩
        · rcases ih rem [] b hb2 with ⟨v, w, hvw, hbv⟩ | ⟨u, w, huw⟩
          · rw [List.reverse_nil, List.nil_append] at hbv
            subst hbv
            exact Or.inr ⟨u₀, w, by rw [hu₀, hvw]⟩
          · refine Or.inr ⟨u₀ ++ u, w, ?_⟩
            rw [hu₀, huw, List.append_assoc]


theorem blocksOf_seg {l b : List Char} (hb : b ∈ blocksOf l) :
    ∃ u w, l = u ++ (b ++ w) := by
  rw [blocksOf] at hb
  have hb2 := (List.mem_filter.1 hb).1
  rcases splitGo_seg l.length l [] b hb2 with ⟨v, w, hvw, hbv⟩ | h
  · rw [List.reverse_nil, List.nil_append] at hbv
    subst hbv
    exact ⟨[], w, by rw [hvw]; rfl⟩
  · exact h

theorem fallbackCards_no_marker {l : List Char} (h : hasMarker l = false) :
    fallbackCards l = [] := by
  rw [fallbackCards]
  apply List.filterMap_eq_nil_iff.2
  intro b hb
  obtain ⟨u, w, hl⟩ := blocksOf_seg hb
  have hbm : hasMarker b = false := by
    rcases hx : hasMarker b with _ | _
    · rfl
    · rw [hasMarker_seg hl hx] at h
      exact absurd h (by simp)
  exact blockCard_no_marker hbm

/-! Soundness of the card guard shared by both strategies. -/

theorem card_guard_sound {q a : List Char} {card : Card}
    (h : (if (trim q).isEmpty || (trim a).isEmpty then none
          else some (Card.mk (trim q) (trim a))) = some card) :
    card.question ≠ [] ∧ card.answer ≠ [] ∧
    trim card.question = card.question ∧ trim card.answer = card.answer := by
  split at h
  · simp at h
  · next hcond =>
    rw [Option.some_inj] at h
    subst h
    simp only [Bool.or_eq_true, not_or, List.isEmpty_iff] at hcond
    exact ⟨hcond.1, hcond.2, trim_idem q, trim_idem a⟩

/-! The claims. -/

/-- C1: for every input made of well-formed pairs — marker, optional
whitespace, question content, newline, marker, optional whitespace,
answer content, separated by blank lines — the primary regex strategy
returns exactly one card per pair, in source order, with both fields
trimmed; in particular the two-pair scenario string parses to exactly
its two cards, in order. -/
theorem claim_C1 :
    (∀ ps : List QAPair, (∀ p ∈ ps, WfPair p) →
      primaryCards (encodeAll ps)
        = ps.map fun p => Card.mk (trim p.question) (trim p.answer)) ∧
    primaryCards ("Q: What does the Earth revolve around?\nA: The Sun.\n\nQ: What is 2+2?\nA: 4.".data)
      = [⟨"What does the Earth revolve around?".data, "The Sun.".data⟩,
         ⟨"What is 2+2?".data, "4.".data⟩] ∧
    parseGeminiResponse ("Q: What does the Earth revolve around?\nA: The Sun.\n\nQ: What is 2+2?\nA: 4.".data)
      = [⟨"What does the Earth revolve around?".data, "The Sun.".data⟩,
         ⟨"What is 2+2?".data, "4.".data⟩] :=
  ⟨primaryCards_encodeAll, by decide, by decide⟩

/-- Witness for C1: the general statement applied to the two scenario
pairs, whose well-formedness is checked by evaluation. -/
theorem claim_C1_witness :
    primaryCards (encodeAll
      [⟨"What does the Earth revolve around?".data, "The Sun.".data, [' '], [' '], false, false⟩,
       ⟨"What is 2+2?".data, "4.".data, [' '], [' '], false, false⟩])
      = [⟨"What does the Earth revolve around?".data, "The Sun.".data⟩,
         ⟨"What is 2+2?".data, "4.".data⟩] := by
  rw [claim_C1.1 _ (by decide)]
  decide

/-- C2: the fallback runs exactly when the primary strategy produced no
card: a non-empty primary result is returned as is, an empty one hands
over to the fallback, and an input without any recognizable marker
yields nothing under both strategies and the parser returns the empty
sequence. -/
theorem claim_C2 :
    (∀ l : List Char, primaryCards l ≠ [] → parseGeminiResponse l = primaryCards l) ∧
    (∀ l : List Char, primaryCards l = [] → parseGeminiResponse l = fallbackCards l) ∧
    (∀ l : List Char, hasMarker l = false →
      primaryCards l = [] ∧ fallbackCards l = [] ∧ parseGeminiResponse l = []) := by
  refine ⟨?_, ?_, ?_⟩
  · intro l h
    simp [parseGeminiResponse, List.isEmpty_iff, h]
  · intro l h
    simp [parseGeminiResponse, h]
  · intro l h
    have h1 := primaryCards_no_marker h
    have h2 := fallbackCards_no_marker h
    exact ⟨h1, h2, by simp [parseGeminiResponse, h1, h2]⟩

/-- Witness for C2: a well-formed input is answered by the primary
strategy alone, and a plain-prose input parses to nothing. -/
theorem claim_C2_witness :
    parseGeminiResponse ("Q: q?\nA: a.".data) = primaryCards ("Q: q?\nA: a.".data) ∧
    hasMarker ("just some plain prose with no markers at all.".data) = false ∧
    parseGeminiResponse ("just some plain prose with no markers at all.".data) = [] :=
  ⟨claim_C2.1 _ (by decide), by decide, (claim_C2.2.2 _ (by decide)).2.2⟩

/-- C3 counterexample: a whitespace-only (but non-empty) request text is
not rejected by the endpoint — the JavaScript guard `if (!text)` is
false for a non-empty string — so the external collaborator is invoked
and the status is not 400, contradicting the claim as stated. -/
theorem claim_C3_counterexample :
    (generateQuestionsHandler true (some [' ']) (.reply ("Q: q\nA: a".data))).geminiInvoked
      = true ∧
    (generateQuestionsHandler true (some [' ']) (.reply ("Q: q\nA: a".data))).reply.status
      ≠ 400 := by
  decide

/-- C3 amended: requests with absent or empty text and requests with
text over 10,000 characters get HTTP 400 without the collaborator being
invoked; whitespace-only non-empty text is not rejected by the server —
instead the client-side wrapper refuses to issue the request at all
when the trimmed prompt is empty, failing with a client-side message
rather than an HTTP 400. -/
theorem claim_C3_amended :
    (∀ g, generateQuestionsHandler true (some []) g
      = ⟨⟨400, .error missingTextMsg⟩, false⟩) ∧
    (∀ (t : List Char) (g : GeminiOutcome), t.length > 10000 →
      generateQuestionsHandler true (some t) g = ⟨⟨400, .error tooLargeMsg⟩, false⟩) ∧
    (∀ (tp : List Char) (o : FetchOutcome), (trim tp).isEmpty = true →
      generateAICards tp o = ⟨false, none, .failure emptyPromptMsg⟩) := by
  refine ⟨fun g => rfl, ?_, ?_⟩
  · intro t g h
    have ht : t.isEmpty = false := by
      rcases t with _ | _
      · simp at h
      · rfl
    simp [generateQuestionsHandler, ht, h]
  · intro tp o h
    simp [generateAICards, h]

/-- Witness for C3 amended: concrete instances of the three parts. -/
theorem claim_C3_amended_witness :
    generateQuestionsHandler true (some []) .failure
      = ⟨⟨400, .error missingTextMsg⟩, false⟩ ∧
    generateQuestionsHandler true (some (List.replicate 10001 'x')) .failure
      = ⟨⟨400, .error tooLargeMsg⟩, false⟩ ∧
    generateAICards ("  ".data) .timeout = ⟨false, none, .failure emptyPromptMsg⟩ :=
  ⟨claim_C3_amended.1 _,
   claim_C3_amended.2.1 _ _ (by rw [List.length_replicate]; omega),
   claim_C3_amended.2.2 _ _ (by decide)⟩

/-- C4: when the external call succeeds but parsing yields zero cards,
the endpoint replies 500 with the dedicated message beginning with the
documented prefix, distinct from the generic failure message; and the
handler never replies with a success body holding an empty card list. -/
theorem claim_C4 :
    (∀ (t r : List Char), t.isEmpty = false → t.length ≤ 10000 →
      parseGeminiResponse r = [] →
      generateQuestionsHandler true (some t) (.reply r)
        = ⟨⟨500, .error parseFailMsg⟩, true⟩) ∧
    "Could not parse Q&A pairs from the generated text".data.isPrefixOf
      parseFailMsg.data = true ∧
    parseFailMsg ≠ genericErrMsg ∧
    (∀ (k : Bool) (t? : Option (List Char)) (g : GeminiOutcome) (st : Nat)
      (cs : List Card),
      (generateQuestionsHandler k t? g).reply = ⟨st, .cards cs⟩ → cs ≠ []) := by
  refine ⟨?_, by decide, by decide, ?_⟩
  · intro t r ht hlen hpr
    have hno : ¬ t.length > 10000 := by omega
    simp [generateQuestionsHandler, ht, hno, hpr]
  · intro k t? g st cs h
    rcases k with _ | _
    · simp [generateQuestionsHandler] at h
    · rcases t? with _ | t
      · simp [generateQuestionsHandler] at h
      · simp only [generateQuestionsHandler, Bool.not_true] at h
        rw [if_neg (by simp)] at h
        by_cases hemp : t.isEmpty = true
        · rw [if_pos hemp] at h
          simp at h
        · by_cases hbig : t.length > 10000
          · rw [if_neg hemp, if_pos hbig] at h
            simp at h
          · rw [if_neg hemp, if_neg hbig] at h
            rcases g with r | _
            · have h2 : (if ((parseGeminiResponse r).length == 0) = true then
                    (⟨⟨500, .error parseFailMsg⟩, true⟩ : HandlerRun)
                  else ⟨⟨200, .cards (parseGeminiResponse r)⟩, true⟩).reply
                  = ⟨st, .cards cs⟩ := h
              rcases hx : parseGeminiResponse r with _ | ⟨c0, cr⟩ <;> rw [hx] at h2
              · simp at h2
              · simp at h2
                obtain ⟨-, hcs⟩ := h2
                intro hnil
                rw [hnil] at hcs
                simp at hcs
            · have h2 : (⟨⟨500, .error genericErrMsg⟩, true⟩ : HandlerRun).reply
                  = ⟨st, .cards cs⟩ := h
              simp at h2

/-- Witness for C4 at a concrete unparsable reply. -/
theorem claim_C4_witness :
    generateQuestionsHandler true (some ("abc".data)) (.reply ("no pairs here".data))
      = ⟨⟨500, .error parseFailMsg⟩, true⟩ :=
  claim_C4.1 _ _ (by decide) (by decide) (by decide)

/-- C5: the parser is a pure deterministic function of its input: equal
input strings give equal card sequences, and the embedding carries no
state from one invocation to the next. -/
theorem claim_C5 : ∀ l₁ l₂ : List Char, l₁ = l₂ →
    parseGeminiResponse l₁ = parseGeminiResponse l₂ := by
  intro l₁ l₂ h
  rw [h]

/-- Witness for C5: two parses of the same concrete string agree. -/
theorem claim_C5_witness :
    parseGeminiResponse ("Q: same?\nA: yes.".data)
      = parseGeminiResponse ("Q: same?\nA: yes.".data) :=
  claim_C5 _ _ rfl

/-- C6: every card the parser returns, through either strategy, has a
non-empty question and answer that are already trimmed. -/
theorem claim_C6 : ∀ (l : List Char), ∀ card ∈ parseGeminiResponse l,
    card.question ≠ [] ∧ card.answer ≠ [] ∧
    trim card.question = card.question ∧ trim card.answer = card.answer := by
  intro l card hc
  simp only [parseGeminiResponse] at hc
  split at hc
  · obtain ⟨b, hb, heq⟩ := List.mem_filterMap.1 hc
    rw [blockCard] at heq
    rcases h1 : qLineMatch b with _ | qg <;> rw [h1] at heq
    · simp at heq
    rcases h2 : aLineMatch b with _ | ag <;> rw [h2] at heq
    · simp at heq
    exact card_guard_sound heq
  · obtain ⟨p, hp2, heq⟩ := List.mem_filterMap.1 hc
    exact card_guard_sound heq

/-- Witness for C6 at a concrete parse and card. -/
theorem claim_C6_witness :
    Card.mk ("q?".data) ("a!".data) ∈ parseGeminiResponse ("Q: q?\nA: a!".data) ∧
    ("q?".data ≠ ([] : List Char) ∧ "a!".data ≠ ([] : List Char) ∧
     trim ("q?".data) = "q?".data ∧ trim ("a!".data) = "a!".data) :=
  ⟨by decide,
   claim_C6 ("Q: q?\nA: a!".data) (Card.mk ("q?".data) ("a!".data)) (by decide)⟩

/-- C7: text longer than 10,000 characters is answered with exactly the
400 too-large error, and no text of length at most 10,000 ever receives
that reply. -/
theorem claim_C7 :
    (∀ (t : List Char) (g : GeminiOutcome), t.length > 10000 →
      generateQuestionsHandler true (some t) g = ⟨⟨400, .error tooLargeMsg⟩, false⟩) ∧
    (∀ (k : Bool) (t : List Char) (g : GeminiOutcome), t.length ≤ 10000 →
      (generateQuestionsHandler k (some t) g).reply ≠ ⟨400, .error tooLargeMsg⟩) := by
  constructor
  · intro t g h
    have ht : t.isEmpty = false := by
      rcases t with _ | _
      · simp at h
      · rfl
    simp [generateQuestionsHandler, ht, h]
  · intro k t g hlen
    have hno : ¬ t.length > 10000 := by omega
    rcases k with _ | _
    · intro heq
      simp [generateQuestionsHandler] at heq
    · intro heq
      simp only [generateQuestionsHandler, Bool.not_true] at heq
      rw [if_neg (by simp)] at heq
      by_cases hemp : t.isEmpty = true
      · rw [if_pos hemp] at heq
        exact absurd heq (by decide)
      · rw [if_neg hemp, if_neg hno] at heq
        rcases g with r | _
        · have h2 : (if ((parseGeminiResponse r).length == 0) = true then
                (⟨⟨500, .error parseFailMsg⟩, true⟩ : HandlerRun)
              else ⟨⟨200, .cards (parseGeminiResponse r)⟩, true⟩).reply
              = ⟨400, .error tooLargeMsg⟩ := heq
          rcases hx : parseGeminiResponse r with _ | ⟨c0, cr⟩ <;> rw [hx] at h2
          · exact absurd h2 (by decide)
          · simp at h2
        · have h2 : (⟨⟨500, .error genericErrMsg⟩, true⟩ : HandlerRun).reply
              = ⟨400, .error tooLargeMsg⟩ := heq
          simp at h2

/-- Witness for C7: an 10,001-character text is rejected as too large,
a short one is not. -/
theorem claim_C7_witness :
    generateQuestionsHandler true (some (List.replicate 10001 'x')) .failure
      = ⟨⟨400, .error tooLargeMsg⟩, false⟩ ∧
    (generateQuestionsHandler true (some ("ok".data)) .failure).reply
      ≠ ⟨400, .error tooLargeMsg⟩ :=
  ⟨claim_C7.1 _ _ (by rw [List.length_replicate]; omega),
   claim_C7.2 _ _ _ (by decide)⟩

/-- C8: the fetch issued by the client wrapper carries a 45,000 ms
(45 second) abort timeout, and the timeout outcome is mapped to the
dedicated timed-out failure message, distinct from the other fixed
client-side failure messages (empty prompt, invalid format, default
service error). -/
theorem claim_C8 :
    aiFetchTimeoutMs = 45000 ∧
    (∀ (tp : List Char), (trim tp).isEmpty = false →
      generateAICards tp .timeout
        = ⟨true, some aiFetchTimeoutMs, .failure timeoutUserMsg⟩) ∧
    timeoutUserMsg ≠ emptyPromptMsg ∧
    timeoutUserMsg ≠ badFormatMsg ∧
    (∀ st : Nat, timeoutUserMsg ≠ serviceErrMsg st) := by
  refine ⟨rfl, ?_, by decide, by decide, ?_⟩
  · intro tp h
    simp [generateAICards, h]
  · intro st heq
    have h3 : (some 'T' : Option Char) = some 'A' :=
      congrArg (fun s => s.data.head?) heq
    exact absurd h3 (by decide)

/-- Witness for C8 at a concrete prompt. -/
theorem claim_C8_witness :
    generateAICards ("abc".data) .timeout
      = ⟨true, some aiFetchTimeoutMs, .failure timeoutUserMsg⟩ :=
  claim_C8.2.1 _ (by decide)

/-- C9: the markers are matched case-insensitively by both strategies:
changing the letter case of the markers of well-formed pairs never
changes the primary result, and lowercase markers give the same cards
as uppercase ones in concrete parses through either strategy. -/
theorem claim_C9 :
    (∀ ps : List QAPair, (∀ p ∈ ps, WfPair p) →
      primaryCards (encodeAll ps)
        = primaryCards (encodeAll (ps.map fun p =>
            QAPair.mk p.question p.answer p.wsq p.wsa false false))) ∧
    parseGeminiResponse ("q: lower?\na: yes.".data)
      = parseGeminiResponse ("Q: lower?\nA: yes.".data) ∧
    fallbackCards ("q: one?\na: two.".data) = fallbackCards ("Q: one?\nA: two.".data) := by
  refine ⟨?_, by decide, by decide⟩
  · intro ps h
    rw [primaryCards_encodeAll ps h, primaryCards_encodeAll _ ?_]
    · rw [List.map_map]
      rfl
    · intro r hr
      obtain ⟨p, hp, rfl⟩ := List.mem_map.1 hr
      obtain ⟨a, b, c, d, e, f⟩ := h p hp
      exact ⟨a, b, c, d, e, f⟩

/-- Witness for C9: a pair written with lowercase markers parses to the
same cards as the same pair with uppercase markers. -/
theorem claim_C9_witness :
    primaryCards (encodeAll [⟨"x?".data, "y.".data, [' '], [' '], true, true⟩])
      = primaryCards (encodeAll [⟨"x?".data, "y.".data, [' '], [' '], false, false⟩]) :=
  claim_C9.1 _ (by decide)

/-- C10: the fallback strategy yields at most one card per block, built
from the first question-marker match and the first answer-marker match
anywhere in the block regardless of their order, each capture cut at
the end of its line — a block holding several pairs still yields
exactly one card. -/
theorem claim_C10 :
    (∀ l : List Char, (fallbackCards l).length ≤ (blocksOf l).length) ∧
    fallbackCards ("Q: q1\nA: a1\nQ: q2\nA: a2".data) = [⟨"q1".data, "a1".data⟩] ∧
    fallbackCards ("A: a1\nQ: q1\nA: a2\nQ: q2".data) = [⟨"q1".data, "a1".data⟩] :=
  ⟨fun l => List.length_filterMap_le _ _, by decide, by decide⟩

end FlashMob
